import Mathlib

/-
Verification of the prompt-assembly, sanitization, response-extraction and
history-normalization logic of the Aura chat backend
(src/backend/model.py and src/backend/server.py).

Text is modelled as List Char.  Python string primitives used by the code
(str.replace, str.strip, str.split, str.count, bounded str.replace) are
embedded as structurally recursive scanners so that every definition is
executable by kernel reduction.
-/

/-- Tests whether the pattern (first argument) is an initial run of the
second list, comparing characters one by one. -/
def begins : List Char → List Char → Bool
  | [], _ => true
  | _ :: _, [] => false
  | a :: as, b :: bs => a == b && begins as bs

/-- Tests whether the pattern occurs as a contiguous run anywhere in the
list (used to state occurrence properties). -/
def containsSub (pat : List Char) : List Char → Bool
  | [] => pat.isEmpty
  | c :: t => begins pat (c :: t) || containsSub pat t

/-- Worker for eraseAll: scans left to right; a positive skip counter means
the scanner is inside a matched occurrence and drops characters.  At skip
zero, a match of the pattern starts a new skip over the whole occurrence
(the matched characters are not emitted), mirroring how Python
str.replace(old, new) with new set to the empty string removes all
non-overlapping occurrences in one left-to-right pass. -/
def eraseAllGo (pat : List Char) : Nat → List Char → List Char
  | _, [] => []
  | k + 1, _ :: t => eraseAllGo pat k t
  | 0, c :: t =>
    if begins pat (c :: t) && !pat.isEmpty then eraseAllGo pat (pat.length - 1) t
    else c :: eraseAllGo pat 0 t

/-- Embedding of Python text.replace(pat, empty string): removes every
non-overlapping occurrence of pat found in one left-to-right scan. -/
def eraseAll (pat s : List Char) : List Char := eraseAllGo pat 0 s

/-- Python whitespace as used by str.strip(). -/
def isSpaceChar (c : Char) : Bool :=
  c == ' ' || c == '\t' || c == '\n' || c == '\x0b' || c == '\x0c' || c == '\r'

/-- Leading-whitespace removal (left half of Python str.strip()). -/
def lstrip (s : List Char) : List Char := s.dropWhile isSpaceChar

/-- Trailing-whitespace removal (right half of Python str.strip()). -/
def rstrip (s : List Char) : List Char := (s.reverse.dropWhile isSpaceChar).reverse

/-- Embedding of Python str.strip(): removes leading and trailing
whitespace. -/
def strip (s : List Char) : List Char := rstrip (lstrip s)

/-- The banned substrings of model.py sanitize, in source order. -/
def banned : List (List Char) :=
  ["User:".data, "Assistant:".data, "Aura:".data, "[/]".data, "[INST]".data, "[/INST]".data]

/-- Embedding of model.py sanitize (lines 17-21): sequentially replaces each
banned substring with the empty string, then strips whitespace. -/
def sanitize (text : List Char) : List Char :=
  strip (banned.foldl (fun acc b => eraseAll b acc) text)

/-- A history turn as seen by generate_response: a Python dict whose
"role" and "content" keys may each be absent (None marks a missing key;
reading a missing key raises KeyError). -/
structure Turn where
  role : Option (List Char)
  content : Option (List Char)
deriving DecidableEq

/-- The system persona prompt of model.py (lines 33-42), verbatim, before
the strip() applied at line 45. -/
def systemPromptRaw : List Char :=
  "\nYou are Aura.\n\nYou are calm, grounded, and emotionally present.\nYou are not a therapist or counselor.\nYou do not analyze, diagnose, or interrogate.\nYou do not ask questions when someone sounds anxious or low.\n\nYou speak like a human sitting nearby, not a professional.\n".data

/-- Embedding of the Python slice history[-8:]: the last n elements of the
list, in order (the whole list when it is shorter). -/
def lastN (n : Nat) (l : List Turn) : List Turn := l.drop (l.length - n)

/-- Embedding of the role-label choice at model.py line 48. -/
def roleLabel (r : List Char) : List Char :=
  if r = "user".data then "User".data else "Aura".data

/-- Embedding of the history loop of model.py lines 47-50: reads the role
key and then the content key of each turn (a missing key raises KeyError,
modelled as Except.error), and appends the formatted line to the
accumulated conversation. -/
def buildLoop (conv : List Char) : List Turn → Except Unit (List Char)
  | [] => Except.ok conv
  | t :: rest =>
    match t.role, t.content with
    | none, _ => Except.error ()
    | some _, none => Except.error ()
    | some r, some c =>
      buildLoop (conv ++ roleLabel r ++ ": ".data ++ sanitize c ++ "\n".data) rest

/-- Embedding of the prompt assembly of model.py lines 44-53: stripped
system prompt, blank line, one line per turn of the last eight history
turns, then the current user message and the open persona marker. -/
def buildConversation (history : List Turn) (userMessage : List Char) :
    Except Unit (List Char) :=
  match buildLoop (strip systemPromptRaw ++ "\n\n".data) (lastN 8 history) with
  | Except.error e => Except.error e
  | Except.ok conv =>
    Except.ok (conv ++ "User: ".data ++ sanitize userMessage ++ "\nAura:".data)

/-- Worker for splitOnSub: scans left to right; a positive skip counter
drops the characters of a matched separator occurrence; at skip zero a
match closes the current segment.  This mirrors Python str.split(sep) on
a non-empty separator. -/
def splitGo (pat : List Char) : Nat → List Char → List (List Char)
  | _, [] => [[]]
  | k + 1, _ :: t => splitGo pat k t
  | 0, c :: t =>
    if begins pat (c :: t) && !pat.isEmpty then [] :: splitGo pat (pat.length - 1) t
    else
      match splitGo pat 0 t with
      | [] => [[c]]
      | seg :: rest => (c :: seg) :: rest

/-- Embedding of Python text.split(pat) for a non-empty pat: the segments
between non-overlapping occurrences found left to right. -/
def splitOnSub (pat s : List Char) : List (List Char) := splitGo pat 0 s

/-- Embedding of the Python index [-1] on a split result: the last segment
(split never returns an empty list, so the default is never used). -/
def lastSeg : List (List Char) → List Char
  | [] => []
  | [x] => x
  | _ :: y :: rest => lastSeg (y :: rest)

/-- Embedding of model.py line 76: split the decoded text on the persona
marker, take the last segment, strip whitespace. -/
def extractReply (decoded : List Char) : List Char :=
  strip (lastSeg (splitOnSub "Aura:".data decoded))

/-- Embedding of Python text.count(c) for a single character. -/
def countChar (a : Char) : List Char → Nat
  | [] => 0
  | c :: t => (if c == a then 1 else 0) + countChar a t

/-- Embedding of Python text.replace(q, d, n) for single characters: the
first n occurrences of the question mark become periods. -/
def replaceFirstN : List Char → Nat → List Char
  | s, 0 => s
  | [], _ + 1 => []
  | c :: t, n + 1 =>
    if c == '?' then '.' :: replaceFirstN t n else c :: replaceFirstN t (n + 1)

/-- Embedding of the hard question limit of model.py lines 78-80: when the
reply holds more than one question mark, all but the last become periods. -/
def questionFilter (s : List Char) : List Char :=
  if 1 < countChar '?' s then replaceFirstN s (countChar '?' s - 1) else s

/-- Embedding of the full post-processing of model.py lines 75-82: marker
split, strip, then the question filter. -/
def finalizeReply (decoded : List Char) : List Char :=
  questionFilter (extractReply decoded)

/-- A raw history entry of the chat endpoint (server.py): either a plain
string or an already-structured turn dict. -/
inductive HistoryEntry
  | strE (t : List Char)
  | dictE (t : Turn)
deriving DecidableEq

/-- Embedding of the normalization loop of server.py lines 43-54: dicts
pass through unchanged; a string becomes a user turn with that string as
content unless it is blank after stripping, in which case it is dropped. -/
def normalizeHistory : List HistoryEntry → List Turn
  | [] => []
  | HistoryEntry.dictE t :: rest => t :: normalizeHistory rest
  | HistoryEntry.strE s :: rest =>
    if strip s ≠ [] then Turn.mk (some "user".data) (some s) :: normalizeHistory rest
    else normalizeHistory rest

/-- Rendering of one history line following the words of the spec: the
label is User exactly when the role is user, else Aura, followed by the
sanitized content. -/
def lineSpec (t : Turn) : List Char :=
  (if t.role = some "user".data then "User".data else "Aura".data) ++
    ": ".data ++ sanitize (t.content.getD []) ++ "\n".data

/-- Concatenation of the spec-side history lines, in order. -/
def joinLines : List Turn → List Char
  | [] => []
  | t :: rest => lineSpec t ++ joinLines rest

/-- Modelled from the spec: the content after the last occurrence of the
marker, or none when the marker does not occur.  Follows the sentence
"take the content after the last occurrence". -/
def afterLastAux (pat : List Char) : List Char → Option (List Char)
  | [] => none
  | c :: t =>
    match afterLastAux pat t with
    | some v => some v
    | none => if begins pat (c :: t) then some ((c :: t).drop pat.length) else none

/-- Modelled from the spec: replace every question mark except the last
with a period; a question mark is kept exactly when no question mark
follows it. -/
def demoteSpec : List Char → List Char
  | [] => []
  | c :: t =>
    if c == '?' then
      if countChar '?' t == 0 then c :: t else '.' :: demoteSpec t
    else c :: demoteSpec t

theorem begins_iff (p s : List Char) : begins p s = true ↔ ∃ r, s = p ++ r := by
  induction p generalizing s with
  | nil => simp [begins]
  | cons a p ih =>
    cases s with
    | nil => simp [begins]
    | cons b t =>
      simp only [begins, Bool.and_eq_true, beq_iff_eq, ih, List.cons_append,
        List.cons.injEq]
      constructor
      · rintro ⟨h1, r, h2⟩
        exact ⟨r, h1.symm, h2⟩
      · rintro ⟨r, h1, h2⟩
        exact ⟨h1.symm, r, h2⟩

theorem contains_cons (p : List Char) (c : Char) (t : List Char)
    (h : containsSub p t = true) : containsSub p (c :: t) = true := by
  simp [containsSub, h]

theorem begins_append (p x b : List Char) (h : begins p x = true) :
    begins p (x ++ b) = true := by
  obtain ⟨r, hr⟩ := (begins_iff p x).mp h
  exact (begins_iff _ _).mpr ⟨r ++ b, by simp [hr]⟩

theorem contains_append_right (p x b : List Char) (h : containsSub p x = true) :
    containsSub p (x ++ b) = true := by
  induction x with
  | nil =>
    have hp : p = [] := by
      cases p with
      | nil => rfl
      | cons a q => simp [containsSub] at h
    subst hp
    cases b with
    | nil => simpa using h
    | cons c t => simp [containsSub, begins]
  | cons c t ih =>
    simp only [containsSub, Bool.or_eq_true] at h
    rcases h with h | h
    · have := begins_append p (c :: t) b h
      simp only [List.cons_append] at this ⊢
      simp [containsSub, this]
    · simp only [List.cons_append]
      simp [containsSub, ih h]

theorem contains_append_left (p a x : List Char) (h : containsSub p x = true) :
    containsSub p (a ++ x) = true := by
  induction a with
  | nil => simpa using h
  | cons c t ih =>
    simp only [List.cons_append]
    simp [containsSub, ih]

theorem contains_drop (p : List Char) (k : Nat) (l : List Char)
    (h : containsSub p (l.drop k) = true) : containsSub p l = true := by
  induction k generalizing l with
  | zero => simpa using h
  | succ k ih =>
    cases l with
    | nil => simpa using h
    | cons c t => exact contains_cons _ _ _ (ih t (by simpa using h))

theorem eraseAll_of_not_contains (p s : List Char) (h : containsSub p s = false) :
    eraseAll p s = s := by
  induction s with
  | nil => rfl
  | cons c t ih =>
    rw [containsSub, Bool.or_eq_false_iff] at h
    show eraseAllGo p 0 (c :: t) = c :: t
    rw [eraseAllGo, h.1]
    simp [show eraseAllGo p 0 t = t from ih h.2]

theorem foldl_erase_id (L : List (List Char)) (s : List Char)
    (h : ∀ b ∈ L, containsSub b s = false) :
    L.foldl (fun acc b => eraseAll b acc) s = s := by
  induction L with
  | nil => rfl
  | cons b L ih =>
    show L.foldl _ (eraseAll b s) = s
    rw [eraseAll_of_not_contains b s (h b (by simp))]
    exact ih (fun x hx => h x (by simp [hx]))

theorem dropWhile_twice (q : Char → Bool) (l : List Char) :
    (l.dropWhile q).dropWhile q = l.dropWhile q := by
  induction l with
  | nil => rfl
  | cons c t ih =>
    by_cases h : q c
    · simp [List.dropWhile, h, ih]
    · simp [List.dropWhile, h]

theorem dropWhile_length (q : Char → Bool) (l : List Char) :
    (l.dropWhile q).length ≤ l.length := by
  induction l with
  | nil => simp
  | cons c t ih =>
    by_cases h : q c
    · simp only [List.dropWhile, h, if_true]
      exact Nat.le_trans ih (by simp)
    · simp [List.dropWhile, h]

theorem dropWhile_cons_eq_self (q : Char → Bool) (c : Char) (z : List Char)
    (h : (c :: z).dropWhile q = c :: z) : q c = false := by
  cases hqc : q c
  · rfl
  · exfalso
    have h1 : (c :: z).dropWhile q = z.dropWhile q := by simp [List.dropWhile, hqc]
    rw [h1] at h
    have h2 : (z.dropWhile q).length ≤ z.length := dropWhile_length q z
    have h3 := congrArg List.length h
    simp at h3
    omega

theorem dropWhile_pre (q : Char → Bool) (l : List Char) :
    ∃ u, l = u ++ l.dropWhile q := by
  induction l with
  | nil => exact ⟨[], rfl⟩
  | cons c t ih =>
    by_cases h : q c
    · obtain ⟨u, hu⟩ := ih
      exact ⟨c :: u, by simp [List.dropWhile, h]; exact hu⟩
    · exact ⟨[], by simp [List.dropWhile, h]⟩

theorem rstrip_pre (y : List Char) : ∃ w, y = rstrip y ++ w := by
  obtain ⟨u, hu⟩ := dropWhile_pre isSpaceChar y.reverse
  refine ⟨u.reverse, ?_⟩
  have h := congrArg List.reverse hu
  simpa [rstrip] using h

theorem rstrip_rstrip (x : List Char) : rstrip (rstrip x) = rstrip x := by
  simp [rstrip, List.reverse_reverse, dropWhile_twice]

theorem dropWhile_rstrip (y : List Char) (h : y.dropWhile isSpaceChar = y) :
    (rstrip y).dropWhile isSpaceChar = rstrip y := by
  obtain ⟨w, hw⟩ := rstrip_pre y
  cases hr : rstrip y with
  | nil => rfl
  | cons c z =>
    have hy : y = c :: (z ++ w) := by rw [hw, hr]; simp
    rw [hy] at h
    have hqc : isSpaceChar c = false := dropWhile_cons_eq_self isSpaceChar c (z ++ w) h
    simp [List.dropWhile, hqc]

theorem strip_strip (v : List Char) : strip (strip v) = strip v := by
  have h1 : (lstrip v).dropWhile isSpaceChar = lstrip v := dropWhile_twice _ _
  have h2 : lstrip (rstrip (lstrip v)) = rstrip (lstrip v) :=
    dropWhile_rstrip _ h1
  show rstrip (lstrip (rstrip (lstrip v))) = rstrip (lstrip v)
  rw [h2]
  exact rstrip_rstrip _

theorem strip_sub (v : List Char) : ∃ u w, v = u ++ strip v ++ w := by
  obtain ⟨u, hu⟩ := dropWhile_pre isSpaceChar v
  obtain ⟨w, hw⟩ := rstrip_pre (lstrip v)
  refine ⟨u, w, ?_⟩
  rw [List.append_assoc]
  show v = u ++ (rstrip (lstrip v) ++ w)
  rw [← hw]
  exact hu

theorem not_contains_strip (p v : List Char) (h : containsSub p v = false) :
    containsSub p (strip v) = false := by
  by_contra hc
  simp only [Bool.not_eq_false] at hc
  obtain ⟨u, w, hv⟩ := strip_sub v
  have ht : containsSub p v = true := by
    rw [hv, List.append_assoc]
    exact contains_append_left _ _ _ (contains_append_right _ _ _ hc)
  rw [ht] at h
  exact Bool.noConfusion h

/-- C1: the claim states that sanitized text contains zero occurrences of
the banned substrings; the code performs one replace pass per banned
substring, and removal can concatenate retained fragments into a fresh
banned marker.  On the failing input the sanitized text is exactly the
banned marker User: (evaluated here), contradicting the claim. -/
theorem sanitize_can_retain_banned_marker :
    sanitize "UsUser:er:".data = "User:".data ∧
      containsSub "User:".data (sanitize "UsUser:er:".data) = true :=
  ⟨by decide, by decide⟩

/-- C2 counterexample: sanitizing the already-sanitized text User: removes
the marker, so the two results differ and sanitize is not idempotent. -/
theorem sanitize_not_idempotent_cex :
    sanitize (sanitize "UsUser:er:".data) ≠ sanitize "UsUser:er:".data := by decide

/-- C2 (amended): sanitize is idempotent on every input whose sanitized
result contains no banned substring (the second application then removes
nothing and stripping stripped text changes nothing). -/
theorem sanitize_idempotent_of_clean (t : List Char)
    (h : ∀ b ∈ banned, containsSub b (sanitize t) = false) :
    sanitize (sanitize t) = sanitize t := by
  show strip (banned.foldl (fun acc b => eraseAll b acc) (sanitize t)) = sanitize t
  rw [foldl_erase_id banned (sanitize t) h]
  show strip (strip (banned.foldl (fun acc b => eraseAll b acc) t)) =
    strip (banned.foldl (fun acc b => eraseAll b acc) t)
  exact strip_strip _

/-- C2 witness: a concrete input satisfying the cleanliness hypothesis, on
which idempotence holds by the amended theorem. -/
theorem sanitize_idempotent_witness :
    (∀ b ∈ banned, containsSub b (sanitize "hello".data) = false) ∧
      sanitize (sanitize "hello".data) = sanitize "hello".data :=
  ⟨by decide, sanitize_idempotent_of_clean _ (by decide)⟩

theorem buildLoop_ok (L : List Turn) (conv : List Char)
    (h : ∀ t ∈ L, t.role.isSome = true ∧ t.content.isSome = true) :
    buildLoop conv L = Except.ok (conv ++ joinLines L) := by
  induction L generalizing conv with
  | nil => simp [buildLoop, joinLines]
  | cons t rest ih =>
    obtain ⟨hr, hc⟩ := h t (by simp)
    rcases t with ⟨ro, co⟩
    cases ro with
    | none => simp at hr
    | some r =>
      cases co with
      | none => simp at hc
      | some c =>
        show buildLoop
          (conv ++ roleLabel r ++ ": ".data ++ sanitize c ++ "\n".data) rest = _
        rw [ih _ (fun x hx => h x (by simp [hx]))]
        have hl : lineSpec (Turn.mk (some r) (some c)) =
            roleLabel r ++ ": ".data ++ sanitize c ++ "\n".data := by
          simp [lineSpec, roleLabel, Option.some.injEq]
        show Except.ok _ = Except.ok (conv ++ (lineSpec (Turn.mk (some r) (some c)) ++
          joinLines rest))
        rw [hl]
        simp [List.append_assoc]

/-- C3 counterexample: a history turn carrying neither a role key nor a
content key makes the assembly fail (Python raises KeyError at
turn["role"]) instead of degrading gracefully. -/
theorem buildConversation_error_cex :
    buildConversation [Turn.mk none none] [] = Except.error () := rfl

/-- C3 (amended): prompt assembly is total on every history whose
considered turns (the last eight) each carry both the role key and the
content key, these values and the new message being arbitrary (empty
strings degrade to empty sanitized strings); a considered turn missing
either key raises a KeyError instead. -/
theorem buildConversation_total_of_keys (history : List Turn) (msg : List Char)
    (h : ∀ t ∈ lastN 8 history, t.role.isSome = true ∧ t.content.isSome = true) :
    ∃ p, buildConversation history msg = Except.ok p := by
  refine ⟨strip systemPromptRaw ++ "\n\n".data ++ joinLines (lastN 8 history) ++
    "User: ".data ++ sanitize msg ++ "\nAura:".data, ?_⟩
  unfold buildConversation
  rw [buildLoop_ok _ _ h]

/-- C3 witness: a fully keyed single-turn history assembles successfully. -/
theorem buildConversation_total_witness :
    ∃ p, buildConversation [Turn.mk (some "user".data) (some "hi".data)] "yo".data
      = Except.ok p :=
  buildConversation_total_of_keys _ _ (by decide)

theorem lastN_length_le (n : Nat) (l : List Turn) : (lastN n l).length ≤ n := by
  simp only [lastN, List.length_drop]
  omega

theorem lastN_of_short (n : Nat) (l : List Turn) (h : l.length ≤ n) :
    lastN n l = l := by
  simp [lastN, Nat.sub_eq_zero_of_le h]

theorem lastN_idem (l : List Turn) : lastN 8 (lastN 8 l) = lastN 8 l :=
  lastN_of_short _ _ (lastN_length_le 8 l)

/-- C6: for a history longer than eight turns, the assembled prompt equals
the prompt assembled from just the last eight turns (older turns are
silently dropped), and it renders each of those turns as a line whose
label is User exactly when the role equals user and Aura otherwise,
followed by the sanitized content. -/
theorem prompt_uses_last_eight (history : List Turn) (msg : List Char)
    (_hlen : 8 < history.length)
    (h : ∀ t ∈ lastN 8 history, t.role.isSome = true ∧ t.content.isSome = true) :
    buildConversation history msg = buildConversation (lastN 8 history) msg ∧
      buildConversation history msg =
        Except.ok (strip systemPromptRaw ++ "\n\n".data ++
          joinLines (lastN 8 history) ++ "User: ".data ++ sanitize msg ++
          "\nAura:".data) := by
  constructor
  · unfold buildConversation
    rw [lastN_idem]
  · unfold buildConversation
    rw [buildLoop_ok _ _ h]

/-- Concrete nine-turn history used to witness the last-eight window. -/
def histNine : List Turn :=
  [Turn.mk (some "user".data) (some "m1".data),
   Turn.mk (some "assistant".data) (some "m2".data),
   Turn.mk (some "user".data) (some "m3".data),
   Turn.mk (some "assistant".data) (some "m4".data),
   Turn.mk (some "user".data) (some "m5".data),
   Turn.mk (some "assistant".data) (some "m6".data),
   Turn.mk (some "user".data) (some "m7".data),
   Turn.mk (some "assistant".data) (some "m8".data),
   Turn.mk (some "user".data) (some "m9".data)]

/-- C6 witness: the nine-turn history satisfies both conclusions. -/
theorem prompt_uses_last_eight_witness :
    buildConversation histNine [] = buildConversation (lastN 8 histNine) [] ∧
      buildConversation histNine [] =
        Except.ok (strip systemPromptRaw ++ "\n\n".data ++
          joinLines (lastN 8 histNine) ++ "User: ".data ++ sanitize [] ++
          "\nAura:".data) :=
  prompt_uses_last_eight histNine [] (by decide) (by decide)

/-- C7: every successfully assembled prompt ends with the new sanitized
user message line immediately followed by the open persona marker, with
no trailing content. -/
theorem prompt_ends_with_user_and_marker (history : List Turn)
    (msg conv : List Char)
    (h : buildConversation history msg = Except.ok conv) :
    ∃ u, conv = u ++ "User: ".data ++ sanitize msg ++ "\nAura:".data := by
  unfold buildConversation at h
  cases hb : buildLoop (strip systemPromptRaw ++ "\n\n".data) (lastN 8 history) with
  | error e =>
    rw [hb] at h
    exact Except.noConfusion h
  | ok c =>
    rw [hb] at h
    injection h with h
    exact ⟨c, h.symm⟩

/-- C7 witness: with empty history and empty message the prompt ends in
the line User-colon-space, newline, Aura-colon (sanitize of the empty
message is empty). -/
theorem prompt_ends_witness :
    ∃ u, (strip systemPromptRaw ++ "\n\n".data) ++ "User: ".data ++ sanitize [] ++
        "\nAura:".data =
      u ++ "User: ".data ++ sanitize [] ++ "\nAura:".data :=
  prompt_ends_with_user_and_marker [] [] _ rfl

/-- C8: at the chat endpoint, a plain-string entry with non-blank stripped
content becomes a user turn carrying that very string as content, a
blank-after-strip string entry is dropped, and a history made only of
string entries never yields a turn with any role other than user. -/
theorem normalize_strings_to_user_turns :
    (∀ s rest, strip s ≠ [] →
        normalizeHistory (HistoryEntry.strE s :: rest) =
          Turn.mk (some "user".data) (some s) :: normalizeHistory rest) ∧
      (∀ s rest, strip s = [] →
        normalizeHistory (HistoryEntry.strE s :: rest) = normalizeHistory rest) ∧
      (∀ l, (∀ e ∈ l, ∃ s, e = HistoryEntry.strE s) →
        ∀ t ∈ normalizeHistory l, t.role = some "user".data) := by
  refine ⟨?_, ?_, ?_⟩
  · intro s rest h
    simp [normalizeHistory, h]
  · intro s rest h
    simp [normalizeHistory, h]
  · intro l
    induction l with
    | nil =>
      intro _ t ht
      simp [normalizeHistory] at ht
    | cons e rest ih =>
      intro hl t ht
      obtain ⟨s, rfl⟩ := hl e (by simp)
      by_cases hs : strip s = []
      · simp only [normalizeHistory, hs, ne_eq, not_true_eq_false, if_false] at ht
        exact ih (fun x hx => hl x (by simp [hx])) t ht
      · simp only [normalizeHistory, hs, ne_eq, not_false_eq_true, if_true,
          List.mem_cons] at ht
        rcases ht with rfl | ht
        · rfl
        · exact ih (fun x hx => hl x (by simp [hx])) t ht

/-- C8 witness: a non-blank string becomes a user turn, a blank one is
dropped, and the all-strings history yields only user roles. -/
theorem normalize_strings_witness :
    normalizeHistory [HistoryEntry.strE "hi".data] =
        Turn.mk (some "user".data) (some "hi".data) :: normalizeHistory [] ∧
      normalizeHistory [HistoryEntry.strE "  ".data] = normalizeHistory [] ∧
      ∀ t ∈ normalizeHistory [HistoryEntry.strE "hi".data],
        t.role = some "user".data :=
  ⟨normalize_strings_to_user_turns.1 _ _ (by decide),
   normalize_strings_to_user_turns.2.1 _ _ (by decide),
   normalize_strings_to_user_turns.2.2 _ (by
     intro e he
     simp only [List.mem_singleton] at he
     exact ⟨_, he⟩)⟩

theorem demoteSpec_of_le_one (t : List Char) (h : countChar '?' t ≤ 1) :
    demoteSpec t = t := by
  induction t with
  | nil => rfl
  | cons c t ih =>
    by_cases hc : (c == '?') = true
    · have h0 : countChar '?' t = 0 := by
        simp only [countChar, hc, if_true] at h
        omega
      simp [demoteSpec, hc, h0]
    · have hle : countChar '?' t ≤ 1 := by
        simp only [countChar, hc, if_false] at h
        omega
      simp [demoteSpec, hc, ih hle]

theorem replaceFirstN_demote (s : List Char) (h : 0 < countChar '?' s) :
    replaceFirstN s (countChar '?' s - 1) = demoteSpec s := by
  induction s with
  | nil => simp [countChar] at h
  | cons c t ih =>
    by_cases hc : (c == '?') = true
    · have hcount : countChar '?' (c :: t) = 1 + countChar '?' t := by
        simp [countChar, hc]
      rcases hzero : countChar '?' t with _ | m
      · rw [hcount, hzero]
        simp [replaceFirstN, demoteSpec, hc, hzero]
      · rw [hcount, hzero]
        have hn : 1 + (m + 1) - 1 = m + 1 := by omega
        rw [hn]
        have iht := ih (by omega)
        rw [hzero] at iht
        simp only [Nat.add_sub_cancel] at iht
        simp [replaceFirstN, demoteSpec, hc, hzero, iht]
    · have hcount : countChar '?' (c :: t) = countChar '?' t := by
        simp [countChar, hc]
      rw [hcount] at h ⊢
      rcases hz : countChar '?' t with _ | m
      · omega
      · rcases m with _ | m
        · show replaceFirstN (c :: t) 0 = demoteSpec (c :: t)
          have hd : demoteSpec t = t := demoteSpec_of_le_one t (by omega)
          simp [replaceFirstN, demoteSpec, hc, hd]
        · have hstep : replaceFirstN (c :: t) (m + 1 + 1 - 1) =
              c :: replaceFirstN t (m + 1) := by
            simp [replaceFirstN, hc]
          rw [hstep]
          have iht := ih (by omega)
          rw [hz] at iht
          simp only [Nat.add_sub_cancel] at iht
          simp [demoteSpec, hc, iht]

/-- C4: whenever the extracted text holds more than one question mark, the
filter replaces every question mark except the last by a period (the
spec-side demotion), and with at most one question mark it leaves the
text unchanged. -/
theorem question_filter_demotes (s : List Char) :
    (1 < countChar '?' s → questionFilter s = demoteSpec s) ∧
      (countChar '?' s ≤ 1 → questionFilter s = s) := by
  constructor
  · intro h
    unfold questionFilter
    rw [if_pos h]
    exact replaceFirstN_demote s (by omega)
  · intro h
    unfold questionFilter
    rw [if_neg (by omega)]

/-- C4 witness: the example of the spec, demoted as stated, and a
one-question text left unchanged. -/
theorem question_filter_demotes_witness :
    (1 < countChar '?' "Why? What now? Are you sure?".data) ∧
      questionFilter "Why? What now? Are you sure?".data =
        demoteSpec "Why? What now? Are you sure?".data ∧
      demoteSpec "Why? What now? Are you sure?".data =
        "Why. What now. Are you sure?".data ∧
      countChar '?' "ok?".data ≤ 1 ∧
      questionFilter "ok?".data = "ok?".data :=
  ⟨by decide, (question_filter_demotes _).1 (by decide), by decide,
   by decide, (question_filter_demotes _).2 (by decide)⟩

theorem countChar_replaceFirstN (s : List Char) (n : Nat)
    (h : n ≤ countChar '?' s) :
    countChar '?' (replaceFirstN s n) = countChar '?' s - n := by
  induction s generalizing n with
  | nil => cases n <;> simp [replaceFirstN, countChar]
  | cons c t ih =>
    cases n with
    | zero => simp [replaceFirstN]
    | succ m =>
      by_cases hc : (c == '?') = true
      · have hcount : countChar '?' (c :: t) = 1 + countChar '?' t := by
          simp [countChar, hc]
        rw [hcount] at h ⊢
        have hstep : replaceFirstN (c :: t) (m + 1) = '.' :: replaceFirstN t m := by
          simp [replaceFirstN, hc]
        rw [hstep]
        have hdot : ('.' == '?') = false := rfl
        rw [countChar, hdot, if_neg (by simp), ih m (by omega)]
        omega
      · have hcount : countChar '?' (c :: t) = countChar '?' t := by
          simp [countChar, hc]
        rw [hcount] at h ⊢
        have hstep : replaceFirstN (c :: t) (m + 1) = c :: replaceFirstN t (m + 1) := by
          simp [replaceFirstN, hc]
        rw [hstep, countChar, if_neg hc, ih (m + 1) h]
        omega

/-- C10: the question filter always outputs at most one question mark and
is idempotent. -/
theorem question_filter_at_most_one (s : List Char) :
    countChar '?' (questionFilter s) ≤ 1 ∧
      questionFilter (questionFilter s) = questionFilter s := by
  have h1 : countChar '?' (questionFilter s) ≤ 1 := by
    unfold questionFilter
    by_cases h : 1 < countChar '?' s
    · rw [if_pos h, countChar_replaceFirstN s _ (by omega)]
      omega
    · rw [if_neg h]
      omega
  refine ⟨h1, ?_⟩
  calc questionFilter (questionFilter s)
      = if 1 < countChar '?' (questionFilter s) then
          replaceFirstN (questionFilter s) (countChar '?' (questionFilter s) - 1)
        else questionFilter s := rfl
    _ = questionFilter s := if_neg (by omega)

theorem splitGo_ne_nil (pat : List Char) :
    ∀ (s : List Char) (k : Nat), splitGo pat k s ≠ [] := by
  intro s
  induction s with
  | nil =>
    intro k
    cases k <;> simp [splitGo]
  | cons c t ih =>
    intro k
    cases k with
    | succ k => exact ih k
    | zero =>
      by_cases hcond : (begins pat (c :: t) && !pat.isEmpty) = true
      · have h1 : splitGo pat 0 (c :: t) = [] :: splitGo pat (pat.length - 1) t := by
          simp only [splitGo]
          rw [if_pos hcond]
        rw [h1]
        simp
      · rcases hsp : splitGo pat 0 t with _ | ⟨seg, rest⟩
        · exact absurd hsp (ih 0)
        · have h1 : splitGo pat 0 (c :: t) = (c :: seg) :: rest := by
            simp only [splitGo]
            rw [if_neg hcond, hsp]
          rw [h1]
          simp

theorem al_step (pat : List Char) (c : Char) (t : List Char)
    (h : begins pat (c :: t) = false) :
    afterLastAux pat (c :: t) = afterLastAux pat t := by
  cases hA : afterLastAux pat t with
  | some v => simp [afterLastAux, hA]
  | none => simp [afterLastAux, hA, h]

theorem afterLast_none_iff (pat : List Char) (hp : pat.isEmpty = false) :
    ∀ s, afterLastAux pat s = none ↔ containsSub pat s = false := by
  intro s
  induction s with
  | nil => simp [afterLastAux, containsSub, hp]
  | cons c t ih =>
    cases hA : afterLastAux pat t with
    | some v =>
      have hct : containsSub pat t = true := by
        by_contra h
        have hcf : containsSub pat t = false := by
          cases hx : containsSub pat t
          · rfl
          · exact absurd hx h
        rw [ih.mpr hcf] at hA
        exact Option.noConfusion hA
      have h1 : afterLastAux pat (c :: t) = some v := by
        simp [afterLastAux, hA]
      rw [h1, containsSub, hct]
      simp
    | none =>
      have hct : containsSub pat t = false := ih.mp hA
      have h1 : afterLastAux pat (c :: t) =
          if begins pat (c :: t) then some ((c :: t).drop pat.length) else none := by
        simp [afterLastAux, hA]
      rw [h1, containsSub, hct]
      cases hx : begins pat (c :: t) <;> simp [hx]

theorem split_single (pat : List Char) (hp : pat.isEmpty = false) :
    ∀ t x, splitOnSub pat t = [x] → containsSub pat t = false := by
  intro t
  induction t with
  | nil =>
    intro x _
    simp [containsSub, hp]
  | cons c t ih =>
    intro x hx
    by_cases hcond : (begins pat (c :: t) && !pat.isEmpty) = true
    · exfalso
      have h1 : splitOnSub pat (c :: t) = [] :: splitGo pat (pat.length - 1) t := by
        show splitGo pat 0 (c :: t) = _
        simp only [splitGo]
        rw [if_pos hcond]
      rw [h1] at hx
      injection hx with h2 h3
      exact splitGo_ne_nil pat t (pat.length - 1) h3
    · rcases hsp : splitOnSub pat t with _ | ⟨seg, rest⟩
      · exact absurd hsp (splitGo_ne_nil pat t 0)
      · have h1 : splitOnSub pat (c :: t) = (c :: seg) :: rest := by
          show splitGo pat 0 (c :: t) = _
          simp only [splitGo]
          rw [if_neg hcond, show splitGo pat 0 t = seg :: rest from hsp]
        rw [h1] at hx
        injection hx with h2 h3
        subst h3
        have hct : containsSub pat t = false := ih seg hsp
        have hb : begins pat (c :: t) = false := by
          cases hx2 : begins pat (c :: t)
          · rfl
          · exfalso
            apply hcond
            rw [hx2, hp]
            rfl
        rw [containsSub, hb, hct]
        rfl

theorem split_no_contains (pat : List Char) :
    ∀ t, containsSub pat t = false → splitOnSub pat t = [t] := by
  intro t
  induction t with
  | nil => intro _; rfl
  | cons c t ih =>
    intro h
    rw [containsSub, Bool.or_eq_false_iff] at h
    have h1 : splitOnSub pat t = [t] := ih h.2
    show splitGo pat 0 (c :: t) = [c :: t]
    simp only [splitGo]
    rw [h.1, Bool.false_and, if_neg (by simp), show splitGo pat 0 t = [t] from h1]

theorem afterLast_some_not_contains (pat : List Char) (hp : pat.isEmpty = false) :
    ∀ s v, afterLastAux pat s = some v → containsSub pat v = false := by
  intro s
  induction s with
  | nil =>
    intro v h
    exact Option.noConfusion h
  | cons c t ih =>
    intro v h
    cases hA : afterLastAux pat t with
    | some w =>
      have h1 : afterLastAux pat (c :: t) = some w := by
        simp [afterLastAux, hA]
      rw [h1] at h
      injection h with h
      exact h ▸ ih w hA
    | none =>
      have h1 : afterLastAux pat (c :: t) =
          if begins pat (c :: t) then some ((c :: t).drop pat.length) else none := by
        simp [afterLastAux, hA]
      rw [h1] at h
      by_cases hb : begins pat (c :: t) = true
      · rw [if_pos hb] at h
        injection h with h
        have hct : containsSub pat t = false := (afterLast_none_iff pat hp t).mp hA
        have hdrop : containsSub pat ((c :: t).drop pat.length) = false := by
        
          by_contra hcc
          simp only [Bool.not_eq_false] at hcc
          obtain ⟨k, hk⟩ : ∃ k, pat.length = k + 1 := by
            cases pat with
            | nil => simp at hp
            | cons a q => exact ⟨q.length, rfl⟩
          rw [hk] at hcc
          simp only [List.drop_succ_cons] at hcc
          have h2 := contains_drop pat k t hcc
          rw [h2] at hct
          exact Bool.noConfusion hct
        exact h ▸ hdrop
      · rw [if_neg hb] at h
        exact Option.noConfusion h

theorem lastSeg_cons (x : List Char) (X : List (List Char)) (h : X ≠ []) :
    lastSeg (x :: X) = lastSeg X := by
  cases X with
  | nil => exact absurd rfl h
  | cons y Y => rfl

theorem lastSeg_split_eq : ∀ s : List Char,
    lastSeg (splitOnSub "Aura:".data s) = (afterLastAux "Aura:".data s).getD s := by
  have main : ∀ n (s : List Char), s.length ≤ n →
      lastSeg (splitOnSub "Aura:".data s) = (afterLastAux "Aura:".data s).getD s := by
    intro n
    induction n with
    | zero =>
      intro s hs
      have h0 : s = [] := List.length_eq_zero.mp (Nat.le_zero.mp hs)
      subst h0
      rfl
    | succ n ih =>
      intro s hs
      cases s with
      | nil => rfl
      | cons c t =>
        by_cases hb : begins "Aura:".data (c :: t) = true
        · obtain ⟨r, hr⟩ := (begins_iff "Aura:".data (c :: t)).mp hb
          have hr5 : c :: t = 'A' :: 'u' :: 'r' :: 'a' :: ':' :: r := hr
          have hlen : r.length ≤ n := by
            have h1 := congrArg List.length hr5
            simp only [List.length_cons] at h1 hs
            omega
          rw [hr5]
          show lastSeg ([] :: splitOnSub "Aura:".data r) =
            (afterLastAux "Aura:".data ('A' :: 'u' :: 'r' :: 'a' :: ':' :: r)).getD
              ('A' :: 'u' :: 'r' :: 'a' :: ':' :: r)
          have hpeel : afterLastAux "Aura:".data ('u' :: 'r' :: 'a' :: ':' :: r) =
              afterLastAux "Aura:".data r := by
            rw [al_step "Aura:".data 'u' ('r' :: 'a' :: ':' :: r) rfl,
              al_step "Aura:".data 'r' ('a' :: ':' :: r) rfl,
              al_step "Aura:".data 'a' (':' :: r) rfl,
              al_step "Aura:".data ':' r rfl]
          have hstep1 : afterLastAux "Aura:".data ('A' :: 'u' :: 'r' :: 'a' :: ':' :: r) =
              match afterLastAux "Aura:".data ('u' :: 'r' :: 'a' :: ':' :: r) with
              | some v => some v
              | none => some r := rfl
          rw [hstep1, hpeel]
          cases hA : afterLastAux "Aura:".data r with
          | none =>
            have hcf : containsSub "Aura:".data r = false :=
              (afterLast_none_iff "Aura:".data rfl r).mp hA
            rw [split_no_contains "Aura:".data r hcf]
            rfl
          | some v =>
            have ihr := ih r hlen
            rw [lastSeg_cons [] (splitOnSub "Aura:".data r)
              (splitGo_ne_nil "Aura:".data r 0), ihr, hA]
            rfl
        · have hbf : begins "Aura:".data (c :: t) = false := by
            cases hx : begins "Aura:".data (c :: t)
            · rfl
            · exact absurd hx hb
          rcases hsp : splitOnSub "Aura:".data t with _ | ⟨seg, rest⟩
          · exact absurd hsp (splitGo_ne_nil "Aura:".data t 0)
          · have hsplit : splitOnSub "Aura:".data (c :: t) = (c :: seg) :: rest := by
              show splitGo "Aura:".data 0 (c :: t) = _
              simp only [splitGo]
              rw [hbf, Bool.false_and, if_neg (by simp),
                show splitGo "Aura:".data 0 t = seg :: rest from hsp]
            have hstept : afterLastAux "Aura:".data (c :: t) =
                afterLastAux "Aura:".data t := al_step _ _ _ hbf
            cases rest with
            | nil =>
              have hcf : containsSub "Aura:".data t = false :=
                split_single "Aura:".data rfl t seg hsp
              have hnone : afterLastAux "Aura:".data t = none :=
                (afterLast_none_iff "Aura:".data rfl t).mpr hcf
              have hseg : seg = t := by
                have h2 := split_no_contains "Aura:".data t hcf
                rw [hsp] at h2
                simpa using h2
              subst hseg
              rw [hsplit, hstept, hnone]
              rfl
            | cons r1 rest1 =>
              have hct : containsSub "Aura:".data t = true := by
                by_contra hcc
                have hcf : containsSub "Aura:".data t = false := by
                  cases hx : containsSub "Aura:".data t
                  · rfl
                  · exact absurd hx hcc
                have h2 := split_no_contains "Aura:".data t hcf
                rw [hsp] at h2
                injection h2 with h3 h4
                exact List.noConfusion h4
              obtain ⟨v, hv⟩ : ∃ v, afterLastAux "Aura:".data t = some v := by
                cases hA : afterLastAux "Aura:".data t with
                | none =>
                  have h2 := (afterLast_none_iff "Aura:".data rfl t).mp hA
                  rw [h2] at hct
                  exact absurd hct (by simp)
                | some v => exact ⟨v, rfl⟩
              have hlen2 : t.length ≤ n := by
                simp only [List.length_cons] at hs
                omega
              have ihx := ih t hlen2
              rw [hsp, hv] at ihx
              simp only [Option.getD_some] at ihx
              rw [hsplit, hstept, hv]
              simp only [Option.getD_some]
              calc lastSeg ((c :: seg) :: r1 :: rest1) = lastSeg (r1 :: rest1) := rfl
                _ = lastSeg (seg :: r1 :: rest1) := rfl
                _ = v := ihx
  intro s
  exact main s.length s (Nat.le_refl _)

/-- C5: the extraction returns the whitespace-trimmed content after the
last occurrence of the marker (the spec-side after-last function), and
when the marker does not occur it returns the whole text trimmed. -/
theorem extract_after_last_marker (s : List Char) :
    extractReply s = strip ((afterLastAux "Aura:".data s).getD s) ∧
      (containsSub "Aura:".data s = false → extractReply s = strip s) := by
  have hb := lastSeg_split_eq s
  constructor
  · show strip (lastSeg (splitOnSub "Aura:".data s)) = _
    rw [hb]
  · intro h
    show strip (lastSeg (splitOnSub "Aura:".data s)) = strip s
    rw [hb, (afterLast_none_iff "Aura:".data rfl s).mpr h]
    rfl

/-- C5 witness: on a marker-free text the extraction is the stripped
text, and the general equation holds there concretely. -/
theorem extract_after_last_witness :
    extractReply " hello ".data =
        strip ((afterLastAux "Aura:".data " hello ".data).getD " hello ".data) ∧
      containsSub "Aura:".data " hello ".data = false ∧
      extractReply " hello ".data = strip " hello ".data :=
  ⟨(extract_after_last_marker _).1, by decide,
   (extract_after_last_marker _).2 (by decide)⟩

theorem begins_replaceFirstN : ∀ p : List Char, '?' ∉ p → '.' ∉ p →
    ∀ (s : List Char) (n : Nat), begins p (replaceFirstN s n) = begins p s := by
  intro p
  induction p with
  | nil => intro _ _ s n; rfl
  | cons a p ih =>
    intro hq hd s n
    have ha : a ≠ '?' := fun h => hq (by rw [← h]; exact List.mem_cons_self a p)
    have had : a ≠ '.' := fun h => hd (by rw [← h]; exact List.mem_cons_self a p)
    have hq2 : '?' ∉ p := fun h => hq (List.mem_cons_of_mem a h)
    have hd2 : '.' ∉ p := fun h => hd (List.mem_cons_of_mem a h)
    cases s with
    | nil => cases n <;> rfl
    | cons c t =>
      cases n with
      | zero => rfl
      | succ m =>
        by_cases hc : (c == '?') = true
        · have hc2 : c = '?' := by simpa using hc
          have h1 : replaceFirstN (c :: t) (m + 1) = '.' :: replaceFirstN t m := by
            simp [replaceFirstN, hc]
          rw [h1]
          show (a == '.' && begins p (replaceFirstN t m)) = (a == c && begins p t)
          have e1 : (a == '.') = false := by simp [had]
          have e2 : (a == c) = false := by simp [hc2, ha]
          rw [e1, e2]
          simp
        · have h1 : replaceFirstN (c :: t) (m + 1) = c :: replaceFirstN t (m + 1) := by
            simp [replaceFirstN, hc]
          rw [h1]
          show (a == c && begins p (replaceFirstN t (m + 1))) = (a == c && begins p t)
          rw [ih hq2 hd2 t (m + 1)]

theorem contains_replaceFirstN (p : List Char) (hq : '?' ∉ p) (hd : '.' ∉ p) :
    ∀ (s : List Char) (n : Nat),
      containsSub p (replaceFirstN s n) = containsSub p s := by
  intro s
  induction s with
  | nil => intro n; cases n <;> rfl
  | cons c t ih =>
    intro n
    cases n with
    | zero => rfl
    | succ m =>
      by_cases hc : (c == '?') = true
      · have h1 : replaceFirstN (c :: t) (m + 1) = '.' :: replaceFirstN t m := by
          simp [replaceFirstN, hc]
        have hbr := begins_replaceFirstN p hq hd (c :: t) (m + 1)
        rw [h1] at hbr ⊢
        show (begins p ('.' :: replaceFirstN t m) || containsSub p (replaceFirstN t m))
          = (begins p (c :: t) || containsSub p t)
        rw [hbr, ih m]
      · have h1 : replaceFirstN (c :: t) (m + 1) = c :: replaceFirstN t (m + 1) := by
          simp [replaceFirstN, hc]
        have hbr := begins_replaceFirstN p hq hd (c :: t) (m + 1)
        rw [h1] at hbr ⊢
        show (begins p (c :: replaceFirstN t (m + 1)) ||
            containsSub p (replaceFirstN t (m + 1)))
          = (begins p (c :: t) || containsSub p t)
        rw [hbr, ih (m + 1)]

/-- C9: the final reply (marker split, strip, question filter) never
contains the persona marker. -/
theorem final_reply_no_marker (s : List Char) :
    containsSub "Aura:".data (finalizeReply s) = false := by
  have h1 : containsSub "Aura:".data (lastSeg (splitOnSub "Aura:".data s)) = false := by
    rw [lastSeg_split_eq s]
    cases hA : afterLastAux "Aura:".data s with
    | none =>
      have h2 := (afterLast_none_iff "Aura:".data rfl s).mp hA
      simpa using h2
    | some v =>
      have h2 := afterLast_some_not_contains "Aura:".data rfl s v hA
      simpa using h2
  have h2 : containsSub "Aura:".data (extractReply s) = false :=
    not_contains_strip _ _ h1
  show containsSub "Aura:".data (questionFilter (extractReply s)) = false
  unfold questionFilter
  by_cases h : 1 < countChar '?' (extractReply s)
  · rw [if_pos h,
      contains_replaceFirstN "Aura:".data (by decide) (by decide) _ _]
    exact h2
  · rw [if_neg h]
    exact h2
